import Mathlib

/-! Verification development for the gocmt comment-injection pipeline
(`main.go`).  Source text is modelled as a list of characters; the Go AST
declarations that `addComments`, `processGoCode` and their helpers walk are
modelled as a structural tree of declaration records carrying the fields the
source reads: kind, signature slice, body slice and attached documentation
comment.  External effects (file system, Go parser, HTTP client) enter the
model as the recorded results of those calls. -/

namespace Gocmt

/-- Source text, modelled as a list of characters. -/
abbrev Str := List Char

/-- Equality of recorded call results is decidable. -/
instance {ε α : Type} [DecidableEq ε] [DecidableEq α] : DecidableEq (Except ε α) :=
  fun x y =>
    match x, y with
    | Except.ok a, Except.ok b =>
      if h : a = b then isTrue (by rw [h])
      else isFalse (by intro hh; cases hh; exact h rfl)
    | Except.error a, Except.error b =>
      if h : a = b then isTrue (by rw [h])
      else isFalse (by intro hh; cases hh; exact h rfl)
    | Except.ok _, Except.error _ => isFalse (by intro hh; cases hh)
    | Except.error _, Except.ok _ => isFalse (by intro hh; cases hh)

/-- Whether `pat` is a leading segment of `s` (character by character). -/
def leadMatch : Str → Str → Bool
  | [], _ => true
  | _ :: _, [] => false
  | p :: ps, c :: cs => p = c && leadMatch ps cs

/-- Model of `strings.Contains s pat`: `pat` occurs contiguously in `s`. -/
def containsSub (pat : Str) : Str → Bool
  | [] => pat.isEmpty
  | c :: rest => leadMatch pat (c :: rest) || containsSub pat rest

/-- Model of `strings.HasSuffix s post`. -/
def endsWithStr (post s : Str) : Bool :=
  leadMatch post.reverse s.reverse

/-- ASCII whitespace, the fragment of Go `\s` / `unicode.IsSpace` that the
texts in play contain. -/
def isSpaceCh (c : Char) : Bool :=
  c = ' ' || c = '\t' || c = '\n' || c = '\r'

/-- The Go regexp word class `\w`. -/
def isWordCh (c : Char) : Bool :=
  c.isAlphanum || c = '_'

/-- Model of `strings.TrimSpace`. -/
def trimSpace (s : Str) : Str :=
  ((s.dropWhile isSpaceCh).reverse.dropWhile isSpaceCh).reverse

/-- Kind of a declaration node, the closed variant behind the dynamic
type-switch in `addComments` (`*ast.FuncDecl`, `*ast.TypeSpec`,
`*ast.GenDecl`). -/
inductive DeclKind
  | funcD
  | typeD
  | genD
deriving DecidableEq

/-- One entry of the annotation response (`Comment` in `main.go`): a
position marker and a comment text. -/
structure Comment where
  position : Str
  comment : Str
deriving DecidableEq

/-- One declaration unit of the structural tree: kind, signature slice,
optional body slice (function-like nodes), and the attached documentation
comment (`decl.Doc`, via the comment map), `none` when undocumented. -/
structure GoDecl where
  kind : DeclKind
  sig : Str
  body : Option Str
  doc : Option Str
deriving DecidableEq

/-- The source slice `goCode[pos..end]` of a declaration: its signature
followed by its body in braces.  `Pos()` is the first token, so the slice
does not include the doc comment. -/
def GoDecl.code (d : GoDecl) : Str :=
  d.sig ++ (match d.body with
    | some b => ' ' :: '\x7b' :: (b ++ ['\x7d'])
    | none => [])

/-- A parsed Go file: package clause, optional import block contents, and
the declarations in document order. -/
structure GoFile where
  pkg : Str
  imports : Option Str
  decls : List GoDecl
deriving DecidableEq

/-- Newline. -/
def nl : Str := ['\n']

/-- Serialization of one declaration, as `go/format.Node` renders it: doc
comment (when attached), then the declaration slice, then a blank line. -/
def serializeDecl (d : GoDecl) : Str :=
  (match d.doc with | some t => t ++ nl | none => []) ++ GoDecl.code d ++ nl ++ nl

/-- Serialization of a file, as `go/format.Node` renders it: package
clause, import block when present, then the declarations in order. -/
def serialize (f : GoFile) : Str :=
  ("package ").data ++ f.pkg ++ nl ++ nl ++
    (match f.imports with
      | some imp => ("import (").data ++ imp ++ (")").data ++ nl ++ nl
      | none => []) ++
    (f.decls.map serializeDecl).flatten

/-- Model of `strings.ReplaceAll txt "\n" "\n// "`, specialised to the one
call site in `addFunctionComments`. -/
def replaceNL : Str → Str
  | [] => []
  | c :: rest =>
    if c = '\n' then '\n' :: '/' :: '/' :: ' ' :: replaceNL rest
    else c :: replaceNL rest

/-- The synthesized comment text `"// " + strings.ReplaceAll(txt, "\n", "\n// ")`. -/
def synthComment (txt : Str) : Str :=
  '/' :: '/' :: ' ' :: replaceNL txt

/-- Model of `addFunctionComments`: scan the entry list in order and return
the comment to attach — the first entry whose position marker occurs in the
declaration slice, provided the declaration has no doc comment
(`strings.Contains(code, comment.Position) && decl.Doc == nil`).  The loop
breaks on the first match, so at most one comment is produced; entries are
never marked consumed. -/
def addFunctionComments (code : Str) (hasDoc : Bool) : List Comment → Option Str
  | [] => none
  | c :: rest =>
    if containsSub c.position code && !hasDoc then some (synthComment c.comment)
    else addFunctionComments code hasDoc rest

/-- The per-node work of the `ast.Inspect` callback in `addComments`: only
the `*ast.FuncDecl` arm is live; the `*ast.TypeSpec` and `*ast.GenDecl`
arms are commented out in the source, so those kinds pass through
untouched. -/
def mergeDecl (comments : List Comment) (d : GoDecl) : GoDecl :=
  match d.kind with
  | DeclKind.funcD =>
    match addFunctionComments (GoDecl.code d) d.doc.isSome comments with
    | some newDoc => { d with doc := some newDoc }
    | none => d
  | DeclKind.typeD => d
  | DeclKind.genD => d

/-- Model of `addComments` restricted to its merge step: visit every
declaration node in document order and run the inspect callback on it.
(The JSON decode and the Go parse that precede the traversal in the source
are external inputs here; they do not depend on the entry markers.) -/
def addComments (goDecls : List GoDecl) (comments : List Comment) : List GoDecl :=
  goDecls.map (mergeDecl comments)

/-- Model of `replaceFuncBody`: the body is replaced by the placeholder
block holding one empty basic literal, which renders as the empty body. -/
def replaceFuncBody (d : GoDecl) : GoDecl :=
  { d with body := d.body.map (fun _ => ([] : Str)) }

/-- The per-declaration effect of the `ast.Inspect` pass in
`processGoCode`: function declarations with a body get the placeholder
body; the parse ran with mode `0` (no `parser.ParseComments`), so every
comment of the file is absent from the tree and the doc field is empty. -/
def elideDecl (d : GoDecl) : GoDecl :=
  match d.kind with
  | DeclKind.funcD => replaceFuncBody { d with doc := none }
  | DeclKind.typeD => { d with doc := none }
  | DeclKind.genD => { d with doc := none }

/-- The tree produced by the elision pass of `processGoCode`. -/
def elideFile (f : GoFile) : GoFile :=
  { f with decls := f.decls.map elideDecl }

/-- Literal matcher: consume `pat` from the front of `s` or fail. -/
def takeLit (pat s : Str) : Option Str :=
  if leadMatch pat s then some (s.drop pat.length) else none

/-- Class matcher for `+`-repetition: consume one or more characters
satisfying `p`, returning the consumed run and the rest. -/
def span1 (p : Char → Bool) (s : Str) : Option (Str × Str) :=
  match s.takeWhile p with
  | [] => none
  | c :: cs => some (c :: cs, s.dropWhile p)

/-- Non-greedy `(.*?)\)` under `(?s)`: consume up to and including the
first `)`. -/
def uptoClose : Str → Option (Str × Str)
  | [] => none
  | c :: rest =>
    if c = ')' then some ([c], rest)
    else (uptoClose rest).map (fun p => (c :: p.1, p.2))

/-- Match the regexp `package\s+\w+\s+import\s+\((.*?)\)` anchored at the
start of `s`, returning the matched text.  The character classes of
adjacent pieces are disjoint, so the greedy scan is the unique match. -/
def matchPkgImportAt (s : Str) : Option Str :=
  (takeLit (("package").data) s).bind (fun r0 =>
    (span1 isSpaceCh r0).bind (fun w1 =>
      (span1 isWordCh w1.2).bind (fun w2 =>
        (span1 isSpaceCh w2.2).bind (fun w3 =>
          (takeLit (("import").data) w3.2).bind (fun r4 =>
            (span1 isSpaceCh r4).bind (fun w4 =>
              (takeLit (("(").data) w4.2).bind (fun r6 =>
                (uptoClose r6).map (fun inner =>
                  ("package").data ++ w1.1 ++ w2.1 ++ w3.1 ++
                    ("import").data ++ w4.1 ++ ("(").data ++ inner.1))))))))

/-- Leftmost match of the package-import regexp (`FindStringSubmatch`). -/
def findPkgImport : Str → Option Str
  | [] => none
  | c :: rest =>
    match matchPkgImportAt (c :: rest) with
    | some m => some m
    | none => findPkgImport rest

/-- Model of `strings.ReplaceAll s pat ""`: delete every non-overlapping
occurrence of `pat`, scanning left to right. -/
def removeAll (pat : Str) : Str → Str
  | [] => []
  | c :: rest =>
    if h : pat ≠ [] ∧ leadMatch pat (c :: rest) = true then
      removeAll pat (List.drop pat.length (c :: rest))
    else c :: removeAll pat rest
termination_by s => s.length
decreasing_by
  · simp only [List.length_drop, List.length_cons]
    have : pat.length ≠ 0 := fun hh => h.1 (List.eq_nil_of_length_eq_zero hh)
    omega
  · simp only [List.length_cons]
    omega

/-- Model of `removePackageAndImports`: find the package+import prologue,
delete every occurrence of the matched text and trim; when the regexp does
not match, fail with the error the source returns. -/
def removePackageAndImports (goCode : Str) : Except String Str :=
  match findPkgImport goCode with
  | some m => Except.ok (trimSpace (removeAll m goCode))
  | none => Except.error ("package or import section not found")

/-- Model of `processGoCode` on a parsed tree: elide the bodies, serialize,
and strip the package+import boilerplate, propagating its error. -/
def processGoCode (f : GoFile) : Except String Str :=
  removePackageAndImports (serialize (elideFile f))

/-- Line-internal whitespace (never the newline separator). -/
def isLineSp (c : Char) : Bool :=
  c = ' ' || c = '\t' || c = '\r'

/-- Drop trailing line-internal whitespace of one line. -/
def trimEnd (l : Str) : Str :=
  (l.reverse.dropWhile isLineSp).reverse

/-- Split text on newlines; always at least one (possibly empty) line. -/
def splitLines : Str → List Str
  | [] => [[]]
  | c :: rest =>
    if c = '\n' then [] :: splitLines rest
    else
      match splitLines rest with
      | [] => [[c]]
      | l :: ls => (c :: l) :: ls

/-- Join lines with newline separators. -/
def joinLines : List Str → Str
  | [] => []
  | [l] => l
  | l :: l2 :: ls => l ++ '\n' :: joinLines (l2 :: ls)

/-- Modelled from the spec: `formatGoCode` delegates to `go/format.Source`,
the canonical Go formatter, which is not part of this repository.  The spec
describes it as a deterministic whitespace normalization of the source
text; it is modelled here as trimming the trailing whitespace of every
line. -/
def formatGoCode (s : Str) : Str :=
  joinLines ((splitLines s).map trimEnd)

/-- Model of the fencing cleanup applied to the response text: the regexp
`(^` + three backticks + `json\n)|(` + three backticks + `$)` deletes a
leading code-fence opener and a trailing fence, then `strings.TrimSpace`
runs. -/
def stripFence (s : Str) : Str :=
  trimSpace
    ((fun s1 =>
        if leadMatch (("```").data).reverse s1.reverse then
          s1.take (s1.length - 3)
        else s1)
      (if leadMatch (("```json\n").data) s then s.drop 8 else s))

/-- The recorded outcomes of the effectful calls the per-file goroutine in
`main` performs, in source order: the `os.ReadFile` result, the
`formatGoCode` calls, the `processGoCode` call, the chat-completion
request, and the `addComments` call (which includes the JSON decode and
the reparse). -/
structure Stages where
  readFile : Except String Str
  format : Str → Except String Str
  processGo : Str → Except String Str
  chat : Str → Except String Str
  merge : Str → Str → Except String Str

/-- The per-file goroutine of `main`: every stage checks `err != nil` and
returns early, so the write at the end runs only when every stage
succeeded.  The returned value is the content written, `none` when the
goroutine returned before reaching the write. -/
def processFile (st : Stages) : Option Str :=
  match st.readFile with
  | Except.error _ => none
  | Except.ok code0 =>
    match st.format code0 with
    | Except.error _ => none
    | Except.ok goCode =>
      match st.processGo goCode with
      | Except.error _ => none
      | Except.ok processed =>
        match st.chat processed with
        | Except.error _ => none
        | Except.ok content =>
          match st.merge goCode (stripFence content) with
          | Except.error _ => none
          | Except.ok result =>
            match st.format result with
            | Except.error _ => none
            | Except.ok formatted => some formatted

/-- The content of the file after the goroutine ran: rewritten on a
completed pipeline, the original bytes otherwise. -/
def fileAfter (orig : Str) (st : Stages) : Str :=
  (processFile st).getD orig

/-- The percent the aggregator prints,
`float64(completed) / float64(total) * 100` with the clamps of `main`. -/
def percentOf (total completed : Nat) : ℚ :=
  if total ≤ completed then 100
  else if completed = 0 then 0
  else (completed : ℚ) / (total : ℚ) * 100

/-- The aggregator goroutine of `main`: one increment of `completed` per
event received on the progress channel, breaking (and signalling `done`)
as soon as `completed >= total`.  Returns the final counter and whether
`done` fired. -/
def progressLoop (total : Nat) : Nat → List Unit → Nat × Bool
  | completed, [] => (completed, false)
  | completed, _ :: evs =>
    if total ≤ completed + 1 then (completed + 1, true)
    else progressLoop total (completed + 1) evs

/-- The successive values of the `completed` counter the aggregator
observes while consuming the events. -/
def progressCounts (total : Nat) : Nat → List Unit → List Nat
  | _, [] => []
  | completed, _ :: evs =>
    (completed + 1) ::
      (if total ≤ completed + 1 then [] else progressCounts total (completed + 1) evs)

/-- One completion event per file: the goroutine's `defer` sends on the
progress channel unconditionally, whether or not `err` was set. -/
def completionEvents (inputs : List Stages) : List Unit :=
  inputs.map (fun _ => ())

/-- An entry of the modelled file system: a plain file, or a directory
whose recursive `filepath.Walk` enumeration yields the listed file
paths. -/
inductive FSEntry
  | file
  | dir (walk : List Str)
deriving DecidableEq

/-- The modelled file system: an association of paths to entries. -/
abbrev FileSys := List (Str × FSEntry)

/-- Model of `os.Stat`: look the path up, `none` when it fails. -/
def statFS (fs : FileSys) (p : Str) : Option FSEntry :=
  (fs.find? (fun e => decide (e.1 = p))).map (fun e => e.2)

/-- Base name of a path (`info.Name()`). -/
def baseName (p : Str) : Str :=
  (p.reverse.takeWhile (fun c => decide (c ≠ '/'))).reverse

/-- The eligibility filter of `getGoFiles`:
`strings.HasSuffix(name, ".go") && !strings.HasSuffix(name, "_test.go")`. -/
def isEligibleGo (name : Str) : Bool :=
  endsWithStr ((".go").data) name && !endsWithStr (("_test.go").data) name

/-- Model of `getGoFiles`: stat each candidate path in order, returning the
stat error as soon as one fails; directories contribute their walked files
filtered by name, plain files contribute themselves when eligible. -/
def getGoFiles (fs : FileSys) : List Str → Except String (List Str)
  | [] => Except.ok []
  | f :: rest =>
    match statFS fs f with
    | none => Except.error ("error accessing file or directory")
    | some (FSEntry.dir walk) =>
      (getGoFiles fs rest).map
        (fun gs => walk.filter (fun p => isEligibleGo (baseName p)) ++ gs)
    | some FSEntry.file =>
      if isEligibleGo (baseName f) then (getGoFiles fs rest).map (fun gs => f :: gs)
      else getGoFiles fs rest

/-- The discovery step of `main`: on a `getGoFiles` error the run prints
the error and returns before any file is processed; otherwise the
discovered list is handed to the worker loop. -/
def discoveredOrAbort (fs : FileSys) (l : List Str) : Option (List Str) :=
  match getGoFiles fs l with
  | Except.error _ => none
  | Except.ok gs => some gs

/-- An undocumented function declaration. -/
def exFuncA : GoDecl :=
  { kind := DeclKind.funcD, sig := ("func A()").data
  , body := some ((" x() ").data), doc := none }

/-- A second undocumented function declaration. -/
def exFuncB : GoDecl :=
  { kind := DeclKind.funcD, sig := ("func B()").data
  , body := some ((" y() ").data), doc := none }

/-- A function declaration that already carries a doc comment. -/
def exFuncDoc : GoDecl :=
  { kind := DeclKind.funcD, sig := ("func C()").data
  , body := some ((" z() ").data), doc := some (("// C is documented").data) }

/-- An undocumented type declaration. -/
def exTypeT : GoDecl :=
  { kind := DeclKind.typeD, sig := ("type T struct").data
  , body := none, doc := none }

/-- An entry whose marker occurs in every function declaration's slice. -/
def entryFunc : Comment :=
  { position := ("func").data, comment := ("does things").data }

/-- An entry whose marker targets `exFuncA` only. -/
def entryA : Comment :=
  { position := ("func A").data, comment := ("A does things").data }

/-- An entry whose marker targets the type declaration. -/
def entryT : Comment :=
  { position := ("type T").data, comment := ("T is a type").data }

/-- An entry whose marker occurs in no declaration. -/
def entryMiss : Comment :=
  { position := ("zzz").data, comment := ("unused").data }

/-- A file with no import block: its elided serialization has no
package+import prologue for the boilerplate regexp to find. -/
def fileNoImports : GoFile :=
  { pkg := ("m").data, imports := none, decls := [exFuncA] }

/-- A file holding one documented function declaration. -/
def fileWithDoc : GoFile :=
  { pkg := ("m").data, imports := none, decls := [exFuncDoc] }

/-- The error text `removePackageAndImports` returns. -/
def pkgImportErr : String := "package or import section not found"

/-- Stage results where elision runs `processGoCode` on `fileNoImports`
and therefore fails. -/
def stagesElideFail : Stages :=
  { readFile := Except.ok (("src").data)
  , format := fun s => Except.ok s
  , processGo := fun _ => processGoCode fileNoImports
  , chat := fun s => Except.ok s
  , merge := fun g c => Except.ok (g ++ c) }

/-- Stage results where every stage succeeds. -/
def stagesAllOk : Stages :=
  { readFile := Except.ok (("a").data)
  , format := fun s => Except.ok s
  , processGo := fun s => Except.ok s
  , chat := fun s => Except.ok s
  , merge := fun g c => Except.ok (g ++ c) }

/-- Stage results where the initial read fails. -/
def stagesReadFail : Stages :=
  { readFile := Except.error ("read failure")
  , format := fun s => Except.ok s
  , processGo := fun s => Except.ok s
  , chat := fun s => Except.ok s
  , merge := fun g c => Except.ok (g ++ c) }

/-- Stage results where the annotation request fails. -/
def stagesChatFail : Stages :=
  { readFile := Except.ok (("b").data)
  , format := fun s => Except.ok s
  , processGo := fun s => Except.ok s
  , chat := fun _ => Except.error ("service error")
  , merge := fun g c => Except.ok (g ++ c) }

/-- A file system holding one eligible Go file. -/
def fsOneFile : FileSys := [((("a.go").data), FSEntry.file)]

/-- A declaration that carries a doc comment fails the `decl.Doc == nil`
test for every entry, so the scan returns nothing. -/
theorem addFunctionComments_hasDoc (code : Str) :
    ∀ cs : List Comment, addFunctionComments code true cs = none := by
  intro cs
  induction cs with
  | nil => rfl
  | cons c rest ih => simp [addFunctionComments, ih]

/-- The inspect callback leaves a documented declaration unchanged. -/
theorem mergeDecl_documented (comments : List Comment) (d : GoDecl) (t : Str)
    (h : d.doc = some t) : mergeDecl comments d = d := by
  cases hk : d.kind <;> simp [mergeDecl, hk, h, addFunctionComments_hasDoc]

/-- The scan either returns nothing or the synthesized comment of an entry
of the list whose marker occurs in the slice (and then the declaration was
undocumented). -/
theorem addFunctionComments_cases (code : Str) (hasDoc : Bool) :
    ∀ cs : List Comment,
      addFunctionComments code hasDoc cs = none ∨
        ∃ c ∈ cs, containsSub c.position code = true ∧ hasDoc = false ∧
          addFunctionComments code hasDoc cs = some (synthComment c.comment) := by
  intro cs
  induction cs with
  | nil => exact Or.inl rfl
  | cons c rest ih =>
    by_cases hc : (containsSub c.position code && !hasDoc) = true
    · refine Or.inr ⟨c, List.mem_cons_self c rest, ?_, ?_, ?_⟩
      · exact (Bool.and_eq_true_iff.mp hc).1
      · have := (Bool.and_eq_true_iff.mp hc).2
        cases hasDoc with
        | true => simp at this
        | false => rfl
      · simp [addFunctionComments, hc]
    · rcases ih with hnone | ⟨c', hmem, hsub, hdoc, heq⟩
      · exact Or.inl (by simp [addFunctionComments, hc, hnone])
      · exact Or.inr ⟨c', List.mem_cons_of_mem c hmem, hsub, hdoc,
          by simp [addFunctionComments, hc, heq]⟩

/-- First match wins: when no earlier entry's marker occurs in the slice
and `c`'s does, the scan returns `c`'s synthesized comment. -/
theorem addFunctionComments_first (code : Str) (c : Comment) (l2 : List Comment) :
    ∀ l1 : List Comment, (∀ c' ∈ l1, containsSub c'.position code = false) →
      containsSub c.position code = true →
      addFunctionComments code false (l1 ++ c :: l2) = some (synthComment c.comment) := by
  intro l1
  induction l1 with
  | nil => intro _ hc; simp [addFunctionComments, hc]
  | cons c0 rest ih =>
    intro hnone hc
    have h0 : containsSub c0.position code = false := hnone c0 (List.mem_cons_self c0 rest)
    simp only [List.cons_append, addFunctionComments, h0]
    exact ih (fun c' hc' => hnone c' (List.mem_cons_of_mem c0 hc')) hc

/-- An entry whose marker does not occur in the slice is skipped: deleting
it from the list leaves the scan's result unchanged. -/
theorem addFunctionComments_skip (code : Str) (hasDoc : Bool) (e : Comment)
    (he : containsSub e.position code = false) :
    ∀ l1 l2 : List Comment,
      addFunctionComments code hasDoc (l1 ++ e :: l2) =
        addFunctionComments code hasDoc (l1 ++ l2) := by
  intro l1 l2
  induction l1 with
  | nil => simp [addFunctionComments, he]
  | cons c0 rest ih =>
    by_cases hc : (containsSub c0.position code && !hasDoc) = true
    · simp [addFunctionComments, hc]
    · simp [addFunctionComments, hc, ih]

/-- When some entry of the list matches an undocumented slice, the scan
finds one. -/
theorem addFunctionComments_finds (code : Str) :
    ∀ cs : List Comment, (∃ c ∈ cs, containsSub c.position code = true) →
      (addFunctionComments code false cs).isSome = true := by
  intro cs
  induction cs with
  | nil => rintro ⟨c, hc, _⟩; cases hc
  | cons c0 rest ih =>
    rintro ⟨c, hmem, hsub⟩
    by_cases hc : containsSub c0.position code = true
    · simp [addFunctionComments, hc]
    · have hc' : containsSub c0.position code = false := by
        cases hb : containsSub c0.position code with
        | false => rfl
        | true => exact absurd hb hc
      rcases List.mem_cons.mp hmem with rfl | htail
      · exact absurd hsub hc
      · simp only [addFunctionComments, hc', Bool.false_and, Bool.false_eq_true,
          if_false]
        exact ih ⟨c, htail, hsub⟩

/-- A leading segment stays a leading segment of a longer text. -/
theorem leadMatch_append (pat s b : Str) (h : leadMatch pat s = true) :
    leadMatch pat (s ++ b) = true := by
  induction pat generalizing s with
  | nil => rfl
  | cons p ps ih =>
    cases s with
    | nil => cases h
    | cons c cs =>
      simp only [leadMatch, Bool.and_eq_true_iff, decide_eq_true_eq] at h
      simp only [List.cons_append, leadMatch, Bool.and_eq_true_iff, decide_eq_true_eq]
      exact ⟨h.1, ih cs h.2⟩

/-- A text that starts with the pattern contains it. -/
theorem leadMatch_self (pat b : Str) : leadMatch pat (pat ++ b) = true := by
  induction pat with
  | nil => rfl
  | cons p ps ih => simp [leadMatch, ih]

/-- Containment at the front. -/
theorem containsSub_self_append (pat b : Str) : containsSub pat (pat ++ b) = true := by
  cases pat with
  | nil => cases b <;> simp [containsSub, leadMatch, List.isEmpty]
  | cons p ps => simpa [containsSub] using Or.inl (leadMatch_self (p :: ps) b)

/-- Containment survives extending the text on the left. -/
theorem containsSub_append_left (pat s : Str) (h : containsSub pat s = true) :
    ∀ a : Str, containsSub pat (a ++ s) = true := by
  intro a
  induction a with
  | nil => exact h
  | cons c rest ih => simp [containsSub, ih]

/-- Containment survives extending the text on the right. -/
theorem containsSub_append_right (pat : Str) :
    ∀ s : Str, containsSub pat s = true → ∀ b : Str, containsSub pat (s ++ b) = true := by
  intro s
  induction s with
  | nil =>
    intro h b
    have hpat : pat = [] := by
      cases pat with
      | nil => rfl
      | cons p ps => simp [containsSub, List.isEmpty] at h
    subst hpat
    cases b <;> simp [containsSub, leadMatch, List.isEmpty]
  | cons c rest ih =>
    intro h b
    simp only [containsSub, Bool.or_eq_true] at h
    rcases h with hlead | htail
    · simpa [containsSub] using Or.inl (leadMatch_append pat (c :: rest) b hlead)
    · simpa [containsSub] using Or.inr (ih htail b)

/-- Containment in a member of a list survives flattening the list. -/
theorem containsSub_flatten_of_mem (pat : Str) :
    ∀ (ls : List Str) (s : Str), s ∈ ls → containsSub pat s = true →
      containsSub pat ls.flatten = true := by
  intro ls
  induction ls with
  | nil => intro s hs; cases hs
  | cons l rest ih =>
    intro s hs hsub
    rcases List.mem_cons.mp hs with rfl | htail
    · simpa [List.flatten_cons] using containsSub_append_right pat s hsub rest.flatten
    · simpa [List.flatten_cons] using
        containsSub_append_left pat rest.flatten (ih s htail hsub) l

/-- Every declaration's signature occurs verbatim in the serialization of a
file that holds it. -/
theorem sig_in_serialize (f : GoFile) (d : GoDecl) (hd : d ∈ f.decls) :
    containsSub d.sig (serialize f) = true := by
  have h2 : containsSub d.sig (serializeDecl d) = true := by
    rw [serializeDecl]
    simp only [List.append_assoc]
    apply containsSub_append_left
    apply containsSub_append_right
    simp only [GoDecl.code]
    exact containsSub_self_append _ _
  have h3 : containsSub d.sig ((f.decls.map serializeDecl).flatten) = true :=
    containsSub_flatten_of_mem d.sig _ _ (List.mem_map_of_mem serializeDecl hd) h2
  rw [serialize]
  simp only [List.append_assoc]
  apply containsSub_append_left
  apply containsSub_append_left
  apply containsSub_append_left
  apply containsSub_append_left
  apply containsSub_append_left
  exact h3

/-- Elision keeps the signature slice of every declaration. -/
theorem elideDecl_sig (d : GoDecl) : (elideDecl d).sig = d.sig := by
  rcases d with ⟨k, s, b, dc⟩
  cases k <;> rfl

/-- Elision keeps the kind of every declaration. -/
theorem elideDecl_kind (d : GoDecl) : (elideDecl d).kind = d.kind := by
  rcases d with ⟨k, s, b, dc⟩
  cases k <;> rfl

/-- After elision no declaration carries a documentation comment: the
elision parse ran without comment retention. -/
theorem elideDecl_doc (d : GoDecl) : (elideDecl d).doc = none := by
  rcases d with ⟨k, s, b, dc⟩
  cases k <;> rfl

/-- A function declaration's body is replaced by the empty placeholder. -/
theorem elideDecl_body (d : GoDecl) (b : Str) (hk : d.kind = DeclKind.funcD)
    (hb : d.body = some b) : (elideDecl d).body = some [] := by
  rcases d with ⟨k, s, bd, dc⟩
  cases k with
  | funcD => simp only [elideDecl, replaceFuncBody] at *; rw [hb]; rfl
  | typeD => cases hk
  | genD => cases hk

/-- A non-function declaration's body is untouched by elision. -/
theorem elideDecl_body_other (d : GoDecl) (hk : d.kind ≠ DeclKind.funcD) :
    (elideDecl d).body = d.body := by
  rcases d with ⟨k, s, bd, dc⟩
  cases k with
  | funcD => exact absurd rfl hk
  | typeD => rfl
  | genD => rfl

/-- Splitting always produces at least one line. -/
theorem splitLines_ne_nil : ∀ s : Str, splitLines s ≠ [] := by
  intro s
  induction s with
  | nil => simp [splitLines]
  | cons c rest ih =>
    by_cases h : c = '\n'
    · simp [splitLines, h]
    · simp only [splitLines, if_neg h]
      cases hrest : splitLines rest with
      | nil => simp
      | cons l ls => simp

/-- No produced line contains the newline separator. -/
theorem noNL_splitLines : ∀ s : Str, ∀ l ∈ splitLines s, ∀ c ∈ l, c ≠ '\n' := by
  intro s
  induction s with
  | nil =>
    intro l hl c hc
    simp [splitLines] at hl
    subst hl
    cases hc
  | cons c0 rest ih =>
    intro l hl c hc
    by_cases h0 : c0 = '\n'
    · rw [h0] at hl
      simp only [splitLines, if_pos rfl] at hl
      rcases List.mem_cons.mp hl with rfl | htail
      · cases hc
      · exact ih l htail c hc
    · simp only [splitLines, if_neg h0] at hl
      cases hrest : splitLines rest with
      | nil => exact absurd hrest (splitLines_ne_nil rest)
      | cons l0 ls =>
        rw [hrest] at hl
        rcases List.mem_cons.mp hl with rfl | htail
        · rcases List.mem_cons.mp hc with rfl | hc0
          · exact h0
          · exact ih l0 (by rw [hrest]; exact List.mem_cons_self _ _) c hc0
        · exact ih l (by rw [hrest]; exact List.mem_cons_of_mem _ htail) c hc

/-- A newline-free text splits into itself alone. -/
theorem splitLines_noNL : ∀ l : Str, (∀ c ∈ l, c ≠ '\n') → splitLines l = [l] := by
  intro l
  induction l with
  | nil => intro _; rfl
  | cons c rest ih =>
    intro hno
    have hc : c ≠ '\n' := hno c (List.mem_cons_self _ _)
    have := ih (fun c' hc' => hno c' (List.mem_cons_of_mem _ hc'))
    simp only [splitLines, if_neg hc, this]

/-- Splitting after a newline-free first line peels it off. -/
theorem splitLines_append_nl (t : Str) :
    ∀ l : Str, (∀ c ∈ l, c ≠ '\n') →
      splitLines (l ++ '\n' :: t) = l :: splitLines t := by
  intro l
  induction l with
  | nil => intro _; simp [splitLines]
  | cons c rest ih =>
    intro hno
    have hc : c ≠ '\n' := hno c (List.mem_cons_self _ _)
    have hr := ih (fun c' hc' => hno c' (List.mem_cons_of_mem _ hc'))
    simp only [List.cons_append, splitLines, if_neg hc, List.append_eq, hr]

/-- Joining newline-free lines and splitting again recovers them. -/
theorem splitLines_joinLines : ∀ ls : List Str, ls ≠ [] →
    (∀ l ∈ ls, ∀ c ∈ l, c ≠ '\n') → splitLines (joinLines ls) = ls := by
  intro ls
  induction ls with
  | nil => intro h; exact absurd rfl h
  | cons l rest ih =>
    intro _ hno
    cases rest with
    | nil =>
      simp only [joinLines]
      exact splitLines_noNL l (hno l (List.mem_cons_self _ _))
    | cons l2 ls2 =>
      simp only [joinLines]
      rw [splitLines_append_nl _ l (hno l (List.mem_cons_self _ _))]
      rw [ih (by simp) (fun l' hl' c hc => hno l' (List.mem_cons_of_mem _ hl') c hc)]

/-- Dropping a satisfied run twice is the same as dropping it once. -/
theorem dropWhile_twice (p : Char → Bool) (l : Str) :
    List.dropWhile p (List.dropWhile p l) = List.dropWhile p l := by
  cases h : List.dropWhile p l with
  | nil => rfl
  | cons x xs =>
    have hx : p x = false := by
      have := List.head?_dropWhile_not p l
      rw [h] at this
      simpa using this
    simp [List.dropWhile, hx]

/-- Trimming the end of a line is idempotent. -/
theorem trimEnd_idem (l : Str) : trimEnd (trimEnd l) = trimEnd l := by
  unfold trimEnd
  rw [List.reverse_reverse, dropWhile_twice]

/-- Trimming drops characters, it never adds any. -/
theorem mem_trimEnd (l : Str) (c : Char) (h : c ∈ trimEnd l) : c ∈ l := by
  unfold trimEnd at h
  rw [List.mem_reverse] at h
  exact List.mem_reverse.mp ((List.dropWhile_sublist _).mem h)

/-- Once enough events arrive, the aggregator counts up to the total and
fires the done signal. -/
theorem progressLoop_done : ∀ (evs : List Unit) (total c : Nat), c < total →
    total ≤ c + evs.length → progressLoop total c evs = (total, true) := by
  intro evs
  induction evs with
  | nil =>
    intro total c h1 h2
    exfalso
    simp at h2
    omega
  | cons e evs ih =>
    intro total c h1 h2
    simp only [progressLoop]
    by_cases hle : total ≤ c + 1
    · rw [if_pos hle]
      have : c + 1 = total := by omega
      rw [this]
    · rw [if_neg hle]
      refine ih total (c + 1) (by omega) ?_
      simp only [List.length_cons] at h2
      omega

/-- With fewer events than the total, the aggregator just counts them and
the done signal does not fire. -/
theorem progressLoop_short : ∀ (evs : List Unit) (total c : Nat),
    c + evs.length < total → progressLoop total c evs = (c + evs.length, false) := by
  intro evs
  induction evs with
  | nil => intro total c _; simp [progressLoop]
  | cons e evs ih =>
    intro total c h
    simp only [progressLoop, List.length_cons] at *
    rw [if_neg (by omega)]
    rw [ih total (c + 1) (by omega)]
    try rfl
    try (congr 1; omega)

/-- The counter values the aggregator passes through are the consecutive
integers from the starting count up to the total. -/
theorem progressCounts_range : ∀ (evs : List Unit) (total c : Nat), c < total →
    total ≤ c + evs.length →
      progressCounts total c evs = List.range' (c + 1) (total - c) := by
  intro evs
  induction evs with
  | nil =>
    intro total c h1 h2
    exfalso
    simp at h2
    omega
  | cons e evs ih =>
    intro total c h1 h2
    simp only [progressCounts]
    by_cases hle : total ≤ c + 1
    · rw [if_pos hle]
      rw [show total - c = 1 by omega]
      rw [List.range'_one]
    · rw [if_neg hle]
      rw [ih total (c + 1) (by omega) (by simp only [List.length_cons] at h2; omega)]
      rw [show total - c = (total - (c + 1)) + 1 by omega]
      rw [List.range'_succ (c + 1) (total - (c + 1)) 1]

/-- Consecutive integers are non-decreasing. -/
theorem chainLe_range' : ∀ (n s : Nat),
    List.Chain' (fun a b => a ≤ b) (List.range' s n) := by
  intro n
  induction n with
  | zero => intro s; simp
  | succ m ih =>
    intro s
    rw [List.range'_succ s m 1]
    refine List.chain'_cons'.mpr ⟨?_, ih (s + 1)⟩
    intro y hy
    cases m with
    | zero => simp at hy
    | succ m2 =>
      rw [List.range'_succ (s + 1) m2 1] at hy
      simp at hy
      omega

/-- A candidate path that cannot be stat'd makes discovery fail,
whatever else the list holds. -/
theorem getGoFiles_error_of_missing (fs : FileSys) :
    ∀ (l : List Str) (p : Str), p ∈ l → statFS fs p = none →
      ∃ e, getGoFiles fs l = Except.error e := by
  intro l
  induction l with
  | nil => intro p hp; cases hp
  | cons f rest ih =>
    intro p hp hstat
    rcases List.mem_cons.mp hp with rfl | htail
    · exact ⟨("error accessing file or directory"), by simp [getGoFiles, hstat]⟩
    · cases hf : statFS fs f with
      | none => exact ⟨("error accessing file or directory"), by simp [getGoFiles, hf]⟩
      | some ent =>
        rcases ih p htail hstat with ⟨e, he⟩
        cases ent with
        | dir walk => exact ⟨e, by simp [getGoFiles, hf, he, Except.map]⟩
        | file =>
          by_cases hel : isEligibleGo (baseName f) = true
          · exact ⟨e, by simp [getGoFiles, hf, hel, he, Except.map]⟩
          · exact ⟨e, by simp [getGoFiles, hf, hel, he]⟩

/-- C1: the merge never overwrites an existing documentation comment — the
inspect callback leaves a documented node untouched — and re-running the
merge on a tree in which every declaration is documented is a no-op,
whatever entries the response supplies. -/
theorem merge_never_overwrites :
    (∀ (comments : List Comment) (d : GoDecl) (t : Str), d.doc = some t →
      mergeDecl comments d = d) ∧
    (∀ (comments : List Comment) (decls : List GoDecl),
      (∀ d ∈ decls, d.doc ≠ none) → addComments decls comments = decls) := by
  constructor
  · exact fun comments d t h => mergeDecl_documented comments d t h
  · intro comments decls hdoc
    unfold addComments
    have hall : ∀ d ∈ decls, mergeDecl comments d = d := by
      intro d hd
      cases hdd : d.doc with
      | none => exact absurd hdd (hdoc d hd)
      | some t => exact mergeDecl_documented comments d t hdd
    calc decls.map (mergeDecl comments) = decls.map id := List.map_congr_left hall
      _ = decls := List.map_id decls

/-- C1 witness: on a documented tree with a matching entry the merge
returns the tree unchanged. -/
theorem merge_never_overwrites_witness :
    addComments [exFuncDoc] [entryFunc] = [exFuncDoc] :=
  merge_never_overwrites.2 [entryFunc] [exFuncDoc] (by decide)

/-- C2 counterexample: the single entry is attached to two distinct
declarations — entries are never marked consumed — refuting the claim that
each entry's comment is attached to at most one declaration node. -/
theorem entry_attached_twice :
    exFuncA.doc = none ∧ exFuncB.doc = none ∧
    (addComments [exFuncA, exFuncB] [entryFunc]).map GoDecl.doc =
      [some (synthComment entryFunc.comment),
        some (synthComment entryFunc.comment)] := by decide

/-- C2 amended: an entry is never marked consumed, so it may be attached to
several declarations; still, each declaration receives at most one new
comment — the one synthesized from the first entry whose marker occurs in
its slice — and a declaration with an existing doc comment receives
none. -/
theorem merge_per_decl_first_match :
    (∀ (comments : List Comment) (d : GoDecl) (t : Str), d.doc = some t →
      (mergeDecl comments d).doc = some t) ∧
    (∀ (comments : List Comment) (d : GoDecl),
      (mergeDecl comments d).doc = d.doc ∨
        (d.doc = none ∧ ∃ c ∈ comments,
          containsSub c.position (GoDecl.code d) = true ∧
          (mergeDecl comments d).doc = some (synthComment c.comment))) ∧
    (∀ (d : GoDecl) (l1 l2 : List Comment) (c : Comment),
      d.kind = DeclKind.funcD → d.doc = none →
      containsSub c.position (GoDecl.code d) = true →
      (∀ c' ∈ l1, containsSub c'.position (GoDecl.code d) = false) →
      (mergeDecl (l1 ++ c :: l2) d).doc = some (synthComment c.comment)) := by
  refine ⟨?_, ?_, ?_⟩
  · intro comments d t h
    rw [mergeDecl_documented comments d t h, h]
  · intro comments d
    cases hk : d.kind with
    | typeD => left; simp [mergeDecl, hk]
    | genD => left; simp [mergeDecl, hk]
    | funcD =>
      rcases addFunctionComments_cases (GoDecl.code d) d.doc.isSome comments with hnone |
        ⟨c, hc, hsub, hdoc, heq⟩
      · left; simp [mergeDecl, hk, hnone]
      · right
        have hdn : d.doc = none := by
          cases hdd : d.doc with
          | none => rfl
          | some t =>
            rw [hdd] at hdoc
            simp at hdoc
        refine ⟨hdn, c, hc, hsub, ?_⟩
        simp [mergeDecl, hk, heq]
  · intro d l1 l2 c hk hdn hc hl1
    have hiss : d.doc.isSome = false := by rw [hdn]; rfl
    have hscan := addFunctionComments_first (GoDecl.code d) c l2 l1 hl1 hc
    simp [mergeDecl, hk, hiss, hscan]

/-- C2 amended witness: with one unmatched entry ahead of two matching
ones, the first matching entry's comment is the one attached. -/
theorem merge_per_decl_first_match_witness :
    (mergeDecl [entryMiss, entryA, entryFunc] exFuncA).doc =
      some (synthComment entryA.comment) :=
  merge_per_decl_first_match.2.2 exFuncA [entryMiss] [entryFunc] entryA
    (by decide) (by decide) (by decide) (by decide)

/-- C3 counterexample: a type declaration whose slice contains the entry's
marker and which has no doc comment receives nothing — the type and
general arms of the type-switch are commented out in the source. -/
theorem type_decl_not_candidate :
    containsSub entryT.position (GoDecl.code exTypeT) = true ∧
    exTypeT.doc = none ∧
    addComments [exTypeT] [entryT] = [exTypeT] := by decide

/-- C3 amended: only function and method declaration units (FuncDecl
nodes) are candidate targets of the merge; type and general declaration
units always pass through unchanged, while an undocumented function
declaration whose slice contains some entry's marker does receive a
comment. -/
theorem only_func_decls_candidates :
    (∀ (comments : List Comment) (d : GoDecl), d.kind ≠ DeclKind.funcD →
      mergeDecl comments d = d) ∧
    (∀ (comments : List Comment) (d : GoDecl), d.kind = DeclKind.funcD →
      d.doc = none →
      (∃ c ∈ comments, containsSub c.position (GoDecl.code d) = true) →
      (mergeDecl comments d).doc ≠ none) := by
  constructor
  · intro comments d hk
    cases hkk : d.kind with
    | funcD => exact absurd hkk hk
    | typeD => simp [mergeDecl, hkk]
    | genD => simp [mergeDecl, hkk]
  · intro comments d hk hdn hex
    have hiss : d.doc.isSome = false := by rw [hdn]; rfl
    have hfound := addFunctionComments_finds (GoDecl.code d) comments hex
    cases hsome : addFunctionComments (GoDecl.code d) false comments with
    | none => rw [hsome] at hfound; cases hfound
    | some newDoc =>
      have : (mergeDecl comments d).doc = some newDoc := by
        simp [mergeDecl, hk, hiss, hsome]
      rw [this]
      simp

/-- C3 amended witness: an undocumented function declaration with a
matching entry gets documented. -/
theorem only_func_decls_candidates_witness :
    (mergeDecl [entryA] exFuncA).doc ≠ none :=
  only_func_decls_candidates.2 [entryA] exFuncA (by decide) (by decide)
    ⟨entryA, by decide, by decide⟩

/-- C8: an entry whose marker occurs in no declaration's slice is silently
dropped — the merge runs to completion and its output equals the output on
the entry list with that entry removed. -/
theorem unmatched_entry_dropped (decls : List GoDecl) (l1 l2 : List Comment)
    (e : Comment)
    (h : ∀ d ∈ decls, containsSub e.position (GoDecl.code d) = false) :
    addComments decls (l1 ++ e :: l2) = addComments decls (l1 ++ l2) := by
  unfold addComments
  refine List.map_congr_left ?_
  intro d hd
  cases hk : d.kind with
  | typeD => simp [mergeDecl, hk]
  | genD => simp [mergeDecl, hk]
  | funcD =>
    have hskip := addFunctionComments_skip (GoDecl.code d) d.doc.isSome e (h d hd) l1 l2
    simp [mergeDecl, hk, hskip]

/-- C8 witness: deleting the unmatched entry leaves the merge output
unchanged. -/
theorem unmatched_entry_dropped_witness :
    addComments [exFuncA, exFuncB] [entryMiss, entryA] =
      addComments [exFuncA, exFuncB] [entryA] :=
  unmatched_entry_dropped [exFuncA, exFuncB] [] [entryA] entryMiss (by decide)

/-- C4 counterexample: on a file without the package+import prologue the
boilerplate strip fails and `processGoCode` returns that error rather than
the un-trimmed text; wired into the pipeline, the file fails (no write). -/
theorem boilerplate_failure_fatal_cex :
    processGoCode fileNoImports = Except.error pkgImportErr ∧
    processFile stagesElideFail = none := by decide

/-- C4 amended: failure of the boilerplate-stripping step is not
recoverable — `removePackageAndImports`'s error propagates out of
`processGoCode`, and a pipeline whose elide stage failed returns without
writing, leaving the original content untouched. -/
theorem boilerplate_failure_propagates :
    (∀ f : GoFile, findPkgImport (serialize (elideFile f)) = none →
      processGoCode f = Except.error pkgImportErr) ∧
    (∀ (st : Stages) (orig c g : Str) (e : String), st.readFile = Except.ok c →
      st.format c = Except.ok g → st.processGo g = Except.error e →
      processFile st = none ∧ fileAfter orig st = orig) := by
  constructor
  · intro f hf
    unfold processGoCode removePackageAndImports
    rw [hf]
    rfl
  · intro st orig c g e h1 h2 h3
    have hnone : processFile st = none := by
      simp [processFile, h1, h2, h3]
    exact ⟨hnone, by unfold fileAfter; rw [hnone]; rfl⟩

/-- C4 amended witness at the concrete import-free file and its pipeline. -/
theorem boilerplate_failure_propagates_witness :
    processGoCode fileNoImports = Except.error pkgImportErr ∧
    fileAfter (("orig").data) stagesElideFail = ("orig").data := by
  constructor
  · exact boilerplate_failure_propagates.1 fileNoImports (by decide)
  · exact (boilerplate_failure_propagates.2 stagesElideFail (("orig").data)
      (("src").data) (("src").data) pkgImportErr (by decide) (by decide)
      (by decide)).2

/-- C5 counterexample: the doc comment present in the source serialization
is absent from the re-serialized elided text — the elision parse runs with
mode 0 and keeps no comments. -/
theorem elider_drops_comment_cex :
    containsSub (("// C is documented").data) (serialize fileWithDoc) = true ∧
    containsSub (("// C is documented").data)
      (serialize (elideFile fileWithDoc)) = false := by decide

/-- C5 amended: elision preserves every declaration signature — each
occurs verbatim in the elided serialization — and replaces function
bodies with the empty placeholder, but no comment of the input survives:
every elided declaration is undocumented. -/
theorem elider_preserves_sigs_not_comments (f : GoFile) :
    ((elideFile f).decls.map GoDecl.sig = f.decls.map GoDecl.sig) ∧
    (∀ d ∈ f.decls, containsSub d.sig (serialize (elideFile f)) = true) ∧
    (∀ d ∈ (elideFile f).decls, d.doc = none) ∧
    (∀ d ∈ f.decls, d.kind = DeclKind.funcD → ∀ b : Str, d.body = some b →
      (elideDecl d).body = some []) := by
  refine ⟨?_, ?_, ?_, ?_⟩
  · show (f.decls.map elideDecl).map GoDecl.sig = _
    rw [List.map_map]
    exact List.map_congr_left
      (fun d _ => by simp only [Function.comp_apply, elideDecl_sig])
  · intro d hd
    have hmem : elideDecl d ∈ (elideFile f).decls := List.mem_map_of_mem elideDecl hd
    have hsig := sig_in_serialize (elideFile f) (elideDecl d) hmem
    rwa [elideDecl_sig] at hsig
  · intro d hd
    rcases List.mem_map.mp hd with ⟨d0, _, rfl⟩
    exact elideDecl_doc d0
  · intro d _ hk b hb
    exact elideDecl_body d b hk hb

/-- C5 amended witness: the signature of the documented function survives
elision while its body is emptied. -/
theorem elider_preserves_sigs_not_comments_witness :
    containsSub (("func C()").data) (serialize (elideFile fileWithDoc)) = true ∧
    (elideDecl exFuncDoc).body = some [] := by
  constructor
  · exact (elider_preserves_sigs_not_comments fileWithDoc).2.1 exFuncDoc (by decide)
  · exact (elider_preserves_sigs_not_comments fileWithDoc).2.2.2 exFuncDoc
      (by decide) (by decide) ((" z() ").data) (by decide)

/-- C6: the file content is rewritten only when every pipeline stage
succeeded — a completed pipeline exhibits a success result for each stage
in order — and when any stage fails the pipeline returns without writing,
leaving the original content byte-for-byte untouched. -/
theorem write_only_after_all_stages (st : Stages) (orig : Str) :
    (∀ out : Str, processFile st = some out →
      ∃ c0 g p r m, st.readFile = Except.ok c0 ∧ st.format c0 = Except.ok g ∧
        st.processGo g = Except.ok p ∧ st.chat p = Except.ok r ∧
        st.merge g (stripFence r) = Except.ok m ∧ st.format m = Except.ok out ∧
        fileAfter orig st = out) ∧
    (processFile st = none → fileAfter orig st = orig) := by
  constructor
  · intro out hout
    have hfa : fileAfter orig st = out := by unfold fileAfter; rw [hout]; rfl
    cases h1 : st.readFile with
    | error e => simp [processFile, h1] at hout
    | ok c0 =>
      cases h2 : st.format c0 with
      | error e => simp [processFile, h1, h2] at hout
      | ok g =>
        cases h3 : st.processGo g with
        | error e => simp [processFile, h1, h2, h3] at hout
        | ok p =>
          cases h4 : st.chat p with
          | error e => simp [processFile, h1, h2, h3, h4] at hout
          | ok r =>
            cases h5 : st.merge g (stripFence r) with
            | error e => simp [processFile, h1, h2, h3, h4, h5] at hout
            | ok m =>
              cases h6 : st.format m with
              | error e => simp [processFile, h1, h2, h3, h4, h5, h6] at hout
              | ok formatted =>
                have hfm : formatted = out := by
                  simpa [processFile, h1, h2, h3, h4, h5, h6] using hout
                subst hfm
                exact ⟨c0, g, p, r, m, rfl, h2, h3, h4, h5, h6, hfa⟩
  · intro hnone
    unfold fileAfter
    rw [hnone]
    rfl

/-- C6 witness: an all-success pipeline writes its final format output; a
failed read leaves the original content unchanged. -/
theorem write_only_after_all_stages_witness :
    (∃ c0 g p r m, stagesAllOk.readFile = Except.ok c0 ∧
      stagesAllOk.format c0 = Except.ok g ∧
      stagesAllOk.processGo g = Except.ok p ∧
      stagesAllOk.chat p = Except.ok r ∧
      stagesAllOk.merge g (stripFence r) = Except.ok m ∧
      stagesAllOk.format m = Except.ok (("aa").data) ∧
      fileAfter (("o").data) stagesAllOk = ("aa").data) ∧
    fileAfter (("o").data) stagesReadFail = ("o").data :=
  ⟨(write_only_after_all_stages stagesAllOk (("o").data)).1 (("aa").data)
      (by decide),
    (write_only_after_all_stages stagesReadFail (("o").data)).2 (by decide)⟩

/-- C7: every file contributes exactly one completion event whether it
succeeded or failed; the counter passes through the consecutive integers
up to the total (so it is monotonically non-decreasing); the done signal
fires exactly when the counter reaches the total and never earlier; and
the percent reported at the terminal state is 100. -/
theorem progress_exactly_counts (inputs : List Stages)
    (h : 0 < inputs.length) :
    (completionEvents inputs).length = inputs.length ∧
    progressCounts inputs.length 0 (completionEvents inputs) =
      List.range' 1 inputs.length ∧
    List.Chain' (fun a b => a ≤ b)
      (progressCounts inputs.length 0 (completionEvents inputs)) ∧
    progressLoop inputs.length 0 (completionEvents inputs) =
      (inputs.length, true) ∧
    (∀ pre : List Unit, pre.length < inputs.length →
      progressLoop inputs.length 0 pre = (pre.length, false)) ∧
    percentOf inputs.length inputs.length = 100 := by
  have hlen : (completionEvents inputs).length = inputs.length := by
    simp [completionEvents]
  refine ⟨hlen, ?_, ?_, ?_, ?_, ?_⟩
  · have := progressCounts_range (completionEvents inputs) inputs.length 0 h
      (by rw [hlen]; omega)
    simpa using this
  · rw [progressCounts_range (completionEvents inputs) inputs.length 0 h
      (by rw [hlen]; omega)]
    exact chainLe_range' (inputs.length - 0) (0 + 1)
  · exact progressLoop_done (completionEvents inputs) inputs.length 0 h
      (by rw [hlen]; omega)
  · intro pre hpre
    have := progressLoop_short pre inputs.length 0 (by omega)
    simpa using this
  · simp [percentOf]

/-- C7 witness: two files, one of which fails its annotation request — the
aggregator terminates at 2 of 2 and reports 100 percent. -/
theorem progress_exactly_counts_witness :
    progressLoop 2 0 (completionEvents [stagesAllOk, stagesChatFail]) =
      (2, true) ∧
    percentOf 2 2 = 100 :=
  ⟨(progress_exactly_counts [stagesAllOk, stagesChatFail] (by decide)).2.2.2.1,
    (progress_exactly_counts [stagesAllOk, stagesChatFail]
      (by decide)).2.2.2.2.2⟩

/-- C9: the formatter is idempotent — formatting its own output returns
it unchanged, byte for byte. -/
theorem formatGoCode_idem (s : Str) :
    formatGoCode (formatGoCode s) = formatGoCode s := by
  unfold formatGoCode
  have hM : (splitLines s).map trimEnd ≠ [] := by
    intro hnil
    exact splitLines_ne_nil s (List.map_eq_nil_iff.mp hnil)
  have hnoNL : ∀ l ∈ (splitLines s).map trimEnd, ∀ c ∈ l, c ≠ '\n' := by
    intro l hl c hc
    rcases List.mem_map.mp hl with ⟨l0, hl0, rfl⟩
    exact noNL_splitLines s l0 hl0 c (mem_trimEnd l0 c hc)
  rw [splitLines_joinLines _ hM hnoNL, List.map_map]
  have hmm : (splitLines s).map (trimEnd ∘ trimEnd) = (splitLines s).map trimEnd :=
    List.map_congr_left (fun a _ => by simp only [Function.comp_apply, trimEnd_idem])
  rw [hmm]

/-- C10: a candidate path that cannot be stat'd makes discovery return an
error, and the run aborts before any file is processed. -/
theorem missing_path_aborts_run (fs : FileSys) (l : List Str) (p : Str)
    (hp : p ∈ l) (hs : statFS fs p = none) :
    (∃ e, getGoFiles fs l = Except.error e) ∧ discoveredOrAbort fs l = none := by
  rcases getGoFiles_error_of_missing fs l p hp hs with ⟨e, he⟩
  exact ⟨⟨e, he⟩, by simp [discoveredOrAbort, he]⟩

/-- C10 witness: a list holding one existing and one missing path aborts
discovery. -/
theorem missing_path_aborts_run_witness :
    discoveredOrAbort fsOneFile [(("a.go").data), (("miss.go").data)] = none :=
  (missing_path_aborts_run fsOneFile [(("a.go").data), (("miss.go").data)]
    (("miss.go").data) (by decide) (by decide)).2

end Gocmt
